import Mathlib

/-!
Shallow embedding of `src/frecent_paths.rs` (the `PathFrecency` engine of pazi)
together with models of its external collaborators (the generic frecency store,
the matcher primitives, the filesystem and the process environment), and proofs
of the specification claims about it.

Scores (`f64` in the source) are modelled as rationals `ℚ`; machine floating
point rounding plays no role in the ranking properties proved here, and `ℚ` has
no NaN, so the NaN-fatal branches of the source never fire in the model.
-/

/-- Greatest element of a list of rationals, `none` on the empty list. -/
def listMax? : List ℚ → Option ℚ
  | [] => none
  | a :: l =>
    match listMax? l with
    | none => some a
    | some m => some (max a m)

/-- Bool test that `q` occurs as a contiguous substring of `t`
(model of Rust `str::contains`). -/
def strContains (t q : String) : Bool :=
  t.data.tails.any (fun suf => q.data.isPrefixOf suf)

/-- Modelled from the spec: the matcher primitives are external
(`matcher.rs` is not part of the sources given), described as a closed family —
exact full-string, substring, a case-insensitive wrapper and a path-component
wrapper — each yielding an optional match strength in [0,1].  The numeric
weights are chosen so that the spec's stated policies hold: the exact matcher
yields the maximal strength 1, and every other strategy yields strictly less
than 3/4, so that the 0.8-weighted exact strength dominates any other blended
score (spec §4.2 design goal 1); a component match further right is weighted
higher (goal 3). -/
inductive Matcher where
  | exact : Matcher
  | substring : Matcher
  | caseInsensitive : Matcher → Matcher
  | pathComponent : Matcher → Matcher
deriving DecidableEq

/-- Modelled from the spec: `matches(candidate_path, query) -> Option<strength in [0,1]>`.
The exact matcher requires full string equality and yields 1; the substring
matcher yields 1/2; the case-insensitive wrapper lowercases both sides and
scales the inner strength by 7/10; the path-component wrapper splits the
candidate on `/`, matches the query against each component, weights a match in
component `i` of `n` by `(i+1)/n` (rightmost heaviest), scales by 7/10, and
keeps the best component. -/
def Matcher.matches : Matcher → String → String → Option ℚ
  | .exact, target, query => if target = query then some 1 else none
  | .substring, target, query => if strContains target query then some (0.5 : ℚ) else none
  | .caseInsensitive m, target, query =>
    (Matcher.matches m target.toLower query.toLower).map (fun v => v * (0.7 : ℚ))
  | .pathComponent m, target, query =>
    listMax? ((target.splitOn "/").enum.filterMap (fun ic =>
      (Matcher.matches m ic.2 query).map
        (fun v => v * (((ic.1 : ℚ) + 1) / (((target.splitOn "/").length : ℚ))) * (0.7 : ℚ))))

/-- The fixed matcher cascade of `directory_matches`, in source order:
`[ExactMatcher, ci_em, pc_em, pc_sm, pc_ci_em, SubstringMatcher, ci_sm, pc_ci_sm]`. -/
def matchers : List Matcher :=
  [ Matcher.exact,
    Matcher.caseInsensitive Matcher.exact,
    Matcher.pathComponent Matcher.exact,
    Matcher.pathComponent Matcher.substring,
    Matcher.pathComponent (Matcher.caseInsensitive Matcher.exact),
    Matcher.substring,
    Matcher.caseInsensitive Matcher.substring,
    Matcher.pathComponent (Matcher.caseInsensitive Matcher.substring) ]

/-- Modelled from the spec: the generic frecency store (external collaborator,
`frecency.rs` is not part of the sources given).  It is key→raw-frecency
accounting with a capacity bound; the opaque per-key accounting is modelled as
a non-negative rational raw score. -/
structure Frecency where
  capacity : Nat
  entries : List (String × ℚ)
deriving DecidableEq

/-- Modelled from the spec: `visit(key)` increments the key's raw frecency per
the store's accounting rules; the opaque accounting is modelled as adding 1 to
an existing key's raw score, a new key starting at raw score 1.  (Capacity
eviction is not modelled; no claim depends on it.) -/
def Frecency.visit (f : Frecency) (k : String) : Frecency :=
  if f.entries.any (fun e => decide (e.1 = k)) then
    { f with entries := f.entries.map (fun e => if e.1 = k then (e.1, e.2 + 1) else e) }
  else
    { f with entries := f.entries ++ [(k, 1)] }

/-- Modelled from the spec: `insert(key)` records the key "treated as a fresh
visit". -/
def Frecency.insert (f : Frecency) (k : String) : Frecency :=
  f.visit k

/-- Modelled from the spec: `retain(predicate) -> changed: bool` keeps exactly
the entries satisfying the predicate and reports whether anything was removed. -/
def Frecency.retain (f : Frecency) (pred : String → Bool) : Bool × Frecency :=
  let kept := f.entries.filter (fun e => pred e.1)
  (decide (kept.length ≠ f.entries.length), { f with entries := kept })

/-- Largest raw score in a list of entries (0 when empty); used to normalize. -/
def maxRaw (l : List (String × ℚ)) : ℚ :=
  l.foldl (fun acc e => max acc e.2) 0

/-- Modelled from the spec: `normalized_frecency()` rescales each entry's raw
frecency onto a common comparable range by the store's own normalization rule;
modelled as division by the largest raw score (yielding scores in [0,1] for
non-negative raw scores; division by zero in `ℚ` is 0). -/
def Frecency.normalized_frecency (f : Frecency) : List (String × ℚ) :=
  f.entries.map (fun e => (e.1, e.2 / maxRaw f.entries))

/-- Model of the database `PathBuf` held by the engine, exposing the two
`std::path` observations `save_to_disk` makes: `file_name()` and `parent()`
(each may be absent), plus the full textual form used as the rename target. -/
structure DbPath where
  full : String
  fileName : Option String
  parent : Option String
deriving DecidableEq

/-- Model of a Rust `PathBuf` as handled by `maybe_add_relative_to`: its
string form `str` is meaningful only when `utf8` is true (`Path::to_str`
returns `None` on non-UTF-8 paths). -/
structure PathBuf where
  utf8 : Bool
  str : String
deriving DecidableEq

/-- Model of `PathBuf::push`: joining a (UTF-8) relative string onto a path.
An absolute `rel` replaces the path, otherwise it is appended after a
separator; pushing onto a non-UTF-8 path leaves it non-UTF-8. -/
def PathBuf.push (b : PathBuf) (rel : String) : PathBuf :=
  if rel.data.head? = some '/' then { utf8 := true, str := rel }
  else { utf8 := b.utf8, str := b.str ++ "/" ++ rel }

/-- Model of `Path::to_str`. -/
def PathBuf.toStr (b : PathBuf) : Option String :=
  if b.utf8 then some b.str else none

/-- The engine state of `struct PathFrecency`: the owned frecency store, the
dirty flag, and the backing database location. -/
structure PathFrecency where
  frecency : Frecency
  dirty : Bool
  path : DbPath
deriving DecidableEq

/-- Environment for one `save_to_disk` call: the process id returned by
`libc::getpid()`, and the outcomes of the three filesystem/serialization
steps (tempfile creation, store serialization, atomic rename; `renameError`
carries the error text the failed rename would display). -/
structure SaveEnv where
  pid : Int
  createOk : Bool
  serializeOk : Bool
  renameError : Option String
deriving DecidableEq

/-- Observable outcome of a successful `save_to_disk`: either the early
no-op return (store not dirty, nothing touched), or a full save that created
and serialized into the temporary file `tmp` and renamed it over the database
path. -/
inductive SaveOutcome where
  | noop : SaveOutcome
  | saved : String → SaveOutcome
deriving DecidableEq

/-- Embedding of `PathFrecency::visit`. -/
def PathFrecency.visit (pf : PathFrecency) (dir : String) : PathFrecency :=
  { pf with frecency := pf.frecency.visit dir, dirty := true }

/-- Embedding of `PathFrecency::maybe_add_relative_to`, parametrized by the
filesystem's directory test.  Mirrors the source: push `rel` onto the base
path; if the result is a directory, map over `to_str` — on `Some`, insert the
string into the store and set `dirty`, returning true; otherwise false. -/
def PathFrecency.maybe_add_relative_to (isDirP : PathBuf → Bool) (pf : PathFrecency)
    (base : PathBuf) (rel : String) : PathFrecency × Bool :=
  let joined := base.push rel
  if isDirP joined then
    match joined.toStr with
    | some s => ({ pf with frecency := pf.frecency.insert s, dirty := true }, true)
    | none => (pf, false)
  else
    (pf, false)

/-- Embedding of `PathFrecency::save_to_disk`.  The Rust method takes `&self`,
so the engine state is returned unchanged alongside the result.  Error strings
are the source's, step ordering is the source's: dirty check, pid check,
file-name component, temporary name `.<fname>.<pid>`, parent directory,
tempfile creation, serialization, atomic rename. -/
def PathFrecency.save_to_disk (env : SaveEnv) (pf : PathFrecency) :
    PathFrecency × Except String SaveOutcome :=
  if !pf.dirty then
    (pf, Except.ok SaveOutcome.noop)
  else if env.pid = 0 then
    (pf, Except.error "could not get pid")
  else
    match pf.path.fileName with
    | none => (pf, Except.error "path did not have file component")
    | some fname =>
      let tmpfileName := "." ++ fname ++ "." ++ toString env.pid
      match pf.path.parent with
      | none => (pf, Except.error "unable to get parent")
      | some dir =>
        let tmpfilePath := dir ++ "/" ++ tmpfileName
        if !env.createOk then
          (pf, Except.error "could not create tempfile")
        else if !env.serializeOk then
          (pf, Except.error "could not create tmpfile")
        else
          match env.renameError with
          | some e => (pf, Except.error ("could not atomically rename: " ++ e))
          | none => (pf, Except.ok (SaveOutcome.saved tmpfilePath))

/-- Ascending sort by score, the comparator of both `sort_by` calls in the
source (`lhs.1.partial_cmp(&rhs.1)`). -/
def sortByScore (l : List (String × ℚ)) : List (String × ℚ) :=
  l.mergeSort (fun a b => decide (a.2 ≤ b.2))

/-- Embedding of `PathFrecency::items_with_frecency`, parametrized by the
filesystem's directory test on path strings.  Retains only entries whose path
is a directory, sets `dirty` if that removed anything, then returns the
store's normalized frecencies sorted ascending by score. -/
def PathFrecency.items_with_frecency (isDir : String → Bool) (pf : PathFrecency) :
    PathFrecency × List (String × ℚ) :=
  let r := pf.frecency.retain (fun p => isDir p)
  let pf' := if r.1 then { pf with frecency := r.2, dirty := true }
             else { pf with frecency := r.2 }
  (pf', sortByScore r.2.normalized_frecency)

/-- The `matched` intermediate of `directory_matches`: for every item and
every matcher in the cascade that yields a strength `v`, the candidate
`(path, v * 0.8 + normalized_frecency * 0.2)`. -/
def matchedCandidates (items : List (String × ℚ)) (filter : String) :
    List (String × ℚ) :=
  items.flatMap (fun item =>
    matchers.filterMap (fun m =>
      (m.matches item.1 filter).map (fun v => (item.1, v * (0.8 : ℚ) + item.2 * (0.2 : ℚ)))))

/-- Lookup of a path's score in the dedup accumulator
(model of `HashMap::get`). -/
def lookupScore (m : List (String × ℚ)) (k : String) : Option ℚ :=
  (m.find? (fun e => decide (e.1 = k))).map (fun e => e.2)

/-- Overwrite the score stored for key `k`
(model of `HashMap::insert` on a present key). -/
def setScore (m : List (String × ℚ)) (k : String) (v : ℚ) : List (String × ℚ) :=
  m.map (fun e => if e.1 = k then (k, v) else e)

/-- One iteration of the dedup loop of `directory_matches`: keep the higher
score for an already-seen path, record a new path otherwise. -/
def dedupeStep (m : List (String × ℚ)) (el : String × ℚ) : List (String × ℚ) :=
  match lookupScore m el.1 with
  | some val => if val < el.2 then setScore m el.1 el.2 else m
  | none => m ++ [el]

/-- The dedup pass of `directory_matches` (`dedupe_map` built over `matched`,
then read back out as a list). -/
def dedupe (l : List (String × ℚ)) : List (String × ℚ) :=
  l.foldl dedupeStep []

/-- Embedding of `PathFrecency::directory_matches`: prune and score via
`items_with_frecency`, run every matcher over every item blending
`v * 0.8 + frecency * 0.2`, deduplicate keeping each path's best score, and
sort ascending by score. -/
def PathFrecency.directory_matches (isDir : String → Bool) (pf : PathFrecency)
    (filter : String) : PathFrecency × List (String × ℚ) :=
  let pr := pf.items_with_frecency isDir
  (pr.1, sortByScore (dedupe (matchedCandidates pr.2 filter)))

/-- Larger of two optional scores (`none` is the identity); the shape in which
the dedup loop accumulates a key's best score. -/
def omax : Option ℚ → Option ℚ → Option ℚ
  | none, b => b
  | some a, none => some a
  | some a, some b => some (max a b)

/-- Sample store used to exercise the theorems on concrete inputs: `"/a/b"`
with low raw frecency and `"/a/b/c"` with high raw frecency. -/
def sampleStore : Frecency :=
  { capacity := 1000, entries := [("/a/b", 1), ("/a/b/c", 10)] }

/-- Sample engine over `sampleStore`. -/
def samplePf : PathFrecency :=
  { frecency := sampleStore,
    dirty := false,
    path := { full := "/home/u/.pazi", fileName := some ".pazi", parent := some "/home/u" } }

/-- Sample engine marked dirty. -/
def samplePfDirty : PathFrecency :=
  { samplePf with dirty := true }

/-- Sample filesystem in which every path is a directory. -/
def allDirs : String → Bool := fun _ => true

/-- Sample filesystem in which `"/a/b/c"` has disappeared. -/
def someDirs : String → Bool := fun s => !(s == "/a/b/c")

/-- Sample environment in which every step of a save succeeds. -/
def okEnv : SaveEnv :=
  { pid := 42, createOk := true, serializeOk := true, renameError := none }

/-- Sample filesystem for `maybe_add_relative_to` in which every path is a
directory. -/
def allDirsP : PathBuf → Bool := fun _ => true

/-- Sample base path for `maybe_add_relative_to`. -/
def sampleBase : PathBuf := { utf8 := true, str := "/a" }

/-! ## Helper lemmas: `listMax?` -/

theorem listMax?_eq_none_iff (l : List ℚ) : listMax? l = none ↔ l = [] := by
  cases l with
  | nil => simp [listMax?]
  | cons a t => cases ht : listMax? t <;> simp [listMax?, ht]

theorem listMax?_mem {l : List ℚ} : ∀ {m : ℚ}, listMax? l = some m → m ∈ l := by
  induction l with
  | nil => intro m h; simp [listMax?] at h
  | cons a t ih =>
    intro m h
    cases ht : listMax? t with
    | none =>
      rw [listMax?, ht] at h
      simp only [Option.some.injEq] at h
      simp [← h]
    | some mt =>
      rw [listMax?, ht] at h
      simp only [Option.some.injEq] at h
      rcases max_choice a mt with h1 | h1
      · simp [← h, h1]
      · right
        rw [← h, h1]
        exact ih ht

theorem le_listMax? {l : List ℚ} : ∀ {x m : ℚ}, x ∈ l → listMax? l = some m → x ≤ m := by
  induction l with
  | nil => intro x m hx _; simp at hx
  | cons a t ih =>
    intro x m hx h
    cases ht : listMax? t with
    | none =>
      have hte : t = [] := (listMax?_eq_none_iff t).mp ht
      subst hte
      rw [listMax?, ht] at h
      simp only [Option.some.injEq] at h
      simp only [List.mem_singleton] at hx
      rw [hx, h]
    | some mt =>
      rw [listMax?, ht] at h
      simp only [Option.some.injEq] at h
      rcases List.mem_cons.mp hx with h1 | h1
      · rw [h1, ← h]; exact le_max_left _ _
      · exact le_trans (ih h1 ht) (by rw [← h]; exact le_max_right _ _)

/-! ## Helper lemmas: matcher strength bounds -/

theorem Matcher.matches_bounds (m : Matcher) :
    ∀ t q v, m.matches t q = some v → 0 ≤ v ∧ v ≤ 1 := by
  induction m with
  | exact =>
    intro t q v h
    rw [Matcher.matches] at h
    split at h
    · cases h; norm_num
    · cases h
  | substring =>
    intro t q v h
    rw [Matcher.matches] at h
    split at h
    · cases h; norm_num
    · cases h
  | caseInsensitive m ih =>
    intro t q v h
    rw [Matcher.matches] at h
    rw [Option.map_eq_some'] at h
    obtain ⟨v', hv', rfl⟩ := h
    have hb := ih _ _ _ hv'
    constructor
    · nlinarith [hb.1]
    · nlinarith [hb.2]
  | pathComponent m ih =>
    intro t q v h
    rw [Matcher.matches] at h
    have hm := listMax?_mem h
    rw [List.mem_filterMap] at hm
    obtain ⟨ic, hic, hicv⟩ := hm
    rw [Option.map_eq_some'] at hicv
    obtain ⟨v', hv', rfl⟩ := hicv
    obtain ⟨i, c⟩ := ic
    have hb := ih _ _ _ hv'
    have hin := List.mem_enum hic
    have hipos : (0 : ℚ) ≤ (i : ℚ) + 1 := by positivity
    have hnpos : (0 : ℚ) < ((t.splitOn "/").length : ℚ) := by
      have : 0 < (t.splitOn "/").length := lt_of_le_of_lt (Nat.zero_le _) hin.1
      exact_mod_cast this
    have hw1 : ((i : ℚ) + 1) / ((t.splitOn "/").length : ℚ) ≤ 1 := by
      rw [div_le_one hnpos]
      have : (i : ℚ) + 1 ≤ ((t.splitOn "/").length : ℚ) := by
        have := hin.1
        exact_mod_cast Nat.succ_le_of_lt this
      exact this
    have hw0 : 0 ≤ ((i : ℚ) + 1) / ((t.splitOn "/").length : ℚ) :=
      div_nonneg hipos (le_of_lt hnpos)
    constructor
    · nlinarith [hb.1]
    · nlinarith [hb.1, hb.2]

theorem Matcher.exact_matches_iff (t q : String) (v : ℚ) :
    Matcher.exact.matches t q = some v ↔ (t = q ∧ v = 1) := by
  rw [Matcher.matches]
  by_cases h : t = q <;> simp [h, eq_comm]

theorem Matcher.matches_ne_exact_le (m : Matcher) (t q : String) (v : ℚ)
    (h : m.matches t q = some v) (hm : m ≠ Matcher.exact) : v ≤ (0.7 : ℚ) := by
  cases m with
  | exact => exact absurd rfl hm
  | substring =>
    rw [Matcher.matches] at h
    split at h
    · cases h; norm_num
    · cases h
  | caseInsensitive m' =>
    rw [Matcher.matches, Option.map_eq_some'] at h
    obtain ⟨v', hv', rfl⟩ := h
    have hb := Matcher.matches_bounds m' _ _ _ hv'
    nlinarith [hb.1, hb.2]
  | pathComponent m' =>
    rw [Matcher.matches] at h
    have hmem := listMax?_mem h
    rw [List.mem_filterMap] at hmem
    obtain ⟨ic, hic, hicv⟩ := hmem
    rw [Option.map_eq_some'] at hicv
    obtain ⟨v', hv', rfl⟩ := hicv
    obtain ⟨i, c⟩ := ic
    have hb := Matcher.matches_bounds m' _ _ _ hv'
    have hin := List.mem_enum hic
    have hipos : (0 : ℚ) ≤ (i : ℚ) + 1 := by positivity
    have hnpos : (0 : ℚ) < ((t.splitOn "/").length : ℚ) := by
      have : 0 < (t.splitOn "/").length := lt_of_le_of_lt (Nat.zero_le _) hin.1
      exact_mod_cast this
    have hw1 : ((i : ℚ) + 1) / ((t.splitOn "/").length : ℚ) ≤ 1 := by
      rw [div_le_one hnpos]
      have : (i : ℚ) + 1 ≤ ((t.splitOn "/").length : ℚ) := by
        have := hin.1
        exact_mod_cast Nat.succ_le_of_lt this
      exact this
    have hw0 : 0 ≤ ((i : ℚ) + 1) / ((t.splitOn "/").length : ℚ) :=
      div_nonneg hipos (le_of_lt hnpos)
    nlinarith [hb.1, hb.2]

/-! ## Helper lemmas: `omax` -/

theorem omax_none_left (b : Option ℚ) : omax none b = b := rfl

theorem omax_none_right (a : Option ℚ) : omax a none = a := by
  cases a <;> rfl

theorem omax_absorb_left {x y : ℚ} (h : x ≤ y) (b : Option ℚ) :
    omax (some x) (omax (some y) b) = omax (some y) b := by
  cases b with
  | none => simp [omax, max_eq_right h]
  | some s =>
    simp only [omax, Option.some.injEq]
    exact max_eq_right (le_trans h (le_max_left _ _))

theorem omax_absorb_right {x y : ℚ} (h : y ≤ x) (b : Option ℚ) :
    omax (some x) (omax (some y) b) = omax (some x) b := by
  cases b with
  | none => simp [omax, max_eq_left h]
  | some s =>
    simp only [omax, Option.some.injEq]
    rw [← max_assoc, max_eq_left h]

theorem listMax?_cons (a : ℚ) (l : List ℚ) :
    listMax? (a :: l) = omax (some a) (listMax? l) := by
  cases h : listMax? l <;> simp [listMax?, h, omax]

/-! ## Helper lemmas: the dedup accumulator -/

theorem lookupScore_nil (k : String) : lookupScore [] k = none := rfl

theorem setScore_map_fst (m : List (String × ℚ)) (k : String) (v : ℚ) :
    (setScore m k v).map Prod.fst = m.map Prod.fst := by
  unfold setScore
  rw [List.map_map]
  congr 1
  funext e
  by_cases h : e.1 = k <;> simp [h]

theorem mem_of_lookupScore {m : List (String × ℚ)} {k : String} {v : ℚ}
    (h : lookupScore m k = some v) : (k, v) ∈ m := by
  unfold lookupScore at h
  rw [Option.map_eq_some'] at h
  obtain ⟨e, he, hv⟩ := h
  have hk : e.1 = k := by
    have := List.find?_some he
    simpa using this
  have hm : e ∈ m := List.mem_of_find?_eq_some he
  have : e = (k, v) := by
    obtain ⟨e1, e2⟩ := e
    simp only at hk hv
    rw [hk, hv]
  rw [← this]
  exact hm

theorem lookupScore_eq_none_iff (m : List (String × ℚ)) (k : String) :
    lookupScore m k = none ↔ ∀ e ∈ m, e.1 ≠ k := by
  unfold lookupScore
  rw [Option.map_eq_none', List.find?_eq_none]
  constructor
  · intro h e he
    exact fun hk => h e he (decide_eq_true hk)
  · intro h e he
    simpa using h e he

theorem lookupScore_of_mem_nodup {m : List (String × ℚ)} {k : String} {v : ℚ}
    (hnd : (m.map Prod.fst).Nodup) (hm : (k, v) ∈ m) : lookupScore m k = some v := by
  induction m with
  | nil => simp at hm
  | cons e t ih =>
    rcases List.mem_cons.mp hm with h1 | h1
    · unfold lookupScore
      rw [← h1]
      simp [List.find?_cons_of_pos]
    · have hk : e.1 ≠ k := by
        intro hk
        have : k ∈ t.map Prod.fst := List.mem_map.mpr ⟨(k, v), h1, rfl⟩
        rw [List.map_cons, List.nodup_cons] at hnd
        exact hnd.1 (hk ▸ this)
      unfold lookupScore
      rw [List.find?_cons_of_neg _ (by simpa using hk)]
      exact ih (by rw [List.map_cons, List.nodup_cons] at hnd; exact hnd.2) h1

theorem lookupScore_setScore_self {m : List (String × ℚ)} {k : String} {v : ℚ}
    (h : lookupScore m k = some v) (w : ℚ) :
    lookupScore (setScore m k w) k = some w := by
  unfold lookupScore at h
  unfold lookupScore setScore
  rw [List.find?_map]
  have hp : (fun e => decide (e.1 = k)) ∘ (fun e : String × ℚ => if e.1 = k then (k, w) else e)
      = fun e => decide (e.1 = k) := by
    funext e
    by_cases he : e.1 = k <;> simp [he]
  rw [hp]
  rw [Option.map_eq_some'] at h
  obtain ⟨e, he, _⟩ := h
  rw [he]
  have hk : e.1 = k := by
    have := List.find?_some he
    simpa using this
  simp [hk]

theorem lookupScore_setScore_ne {m : List (String × ℚ)} {k k' : String} (hne : k' ≠ k)
    (w : ℚ) : lookupScore (setScore m k w) k' = lookupScore m k' := by
  unfold lookupScore setScore
  rw [List.find?_map]
  have hp : (fun e => decide (e.1 = k')) ∘ (fun e : String × ℚ => if e.1 = k then (k, w) else e)
      = fun e => decide (e.1 = k') := by
    funext e
    by_cases he : e.1 = k
    · simp [he, Ne.symm hne]
    · simp [he]
  rw [hp]
  cases hf : List.find? (fun e => decide (e.1 = k')) m with
  | none => rfl
  | some e =>
    have hk : e.1 = k' := by
      have := List.find?_some hf
      simpa using this
    have hee : (if e.1 = k then (k, w) else e) = e := by
      rw [if_neg]
      rw [hk]
      exact hne
    simp [hee]

theorem lookupScore_append_single (m : List (String × ℚ)) (el : String × ℚ) (k : String) :
    lookupScore (m ++ [el]) k
      = (lookupScore m k).or (if el.1 = k then some el.2 else none) := by
  unfold lookupScore
  rw [List.find?_append]
  cases hf : List.find? (fun e => decide (e.1 = k)) m with
  | some e => simp [hf]
  | none =>
    by_cases he : el.1 = k <;> simp [List.find?_cons, he]

/-- Scores that the `matched` list offers for key `k`. -/
def scoresFor (l : List (String × ℚ)) (k : String) : List ℚ :=
  (l.filter (fun e => decide (e.1 = k))).map (fun e => e.2)

theorem scoresFor_cons (el : String × ℚ) (l : List (String × ℚ)) (k : String) :
    scoresFor (el :: l) k
      = if el.1 = k then el.2 :: scoresFor l k else scoresFor l k := by
  unfold scoresFor
  by_cases he : el.1 = k <;> simp [List.filter_cons, he]

theorem lookupScore_foldl_dedupeStep (k : String) :
    ∀ (l acc : List (String × ℚ)),
      lookupScore (l.foldl dedupeStep acc) k
        = omax (lookupScore acc k) (listMax? (scoresFor l k)) := by
  intro l
  induction l with
  | nil =>
    intro acc
    simp [scoresFor, listMax?, omax_none_right]
  | cons el l ih =>
    intro acc
    have hds : ∀ (a : List (String × ℚ)) (e : String × ℚ) val,
        lookupScore a e.1 = some val →
        dedupeStep a e = if val < e.2 then setScore a e.1 e.2 else a := by
      intro a e val hv
      unfold dedupeStep
      rw [hv]
    have hdn : ∀ (a : List (String × ℚ)) (e : String × ℚ),
        lookupScore a e.1 = none → dedupeStep a e = a ++ [e] := by
      intro a e hv
      unfold dedupeStep
      rw [hv]
    rw [List.foldl_cons, ih, scoresFor_cons]
    by_cases hk : el.1 = k
    · rw [if_pos hk, listMax?_cons]
      cases hv : lookupScore acc el.1 with
      | some val =>
        have hvk : lookupScore acc k = some val := by rw [← hk]; exact hv
        rw [hds acc el val hv]
        by_cases hlt : val < el.2
        · rw [if_pos hlt, hk, lookupScore_setScore_self hvk el.2, hvk,
            omax_absorb_left (le_of_lt hlt)]
        · rw [if_neg hlt, hvk, omax_absorb_right (not_lt.mp hlt)]
      | none =>
        have hvk : lookupScore acc k = none := by rw [← hk]; exact hv
        rw [hdn acc el hv, lookupScore_append_single, hvk, if_pos hk,
          omax_none_left, Option.none_or]
    · rw [if_neg hk]
      have hL : lookupScore (dedupeStep acc el) k = lookupScore acc k := by
        cases hv : lookupScore acc el.1 with
        | some val =>
          rw [hds acc el val hv]
          by_cases hlt : val < el.2
          · rw [if_pos hlt, lookupScore_setScore_ne (fun h => hk h.symm) el.2]
          · rw [if_neg hlt]
        | none =>
          rw [hdn acc el hv, lookupScore_append_single, if_neg hk, Option.or_none]
      rw [hL]

theorem lookupScore_dedupe (l : List (String × ℚ)) (k : String) :
    lookupScore (dedupe l) k = listMax? (scoresFor l k) := by
  unfold dedupe
  rw [lookupScore_foldl_dedupeStep k l [], lookupScore_nil, omax_none_left]

theorem dedupe_keys_nodup (l : List (String × ℚ)) :
    ((dedupe l).map Prod.fst).Nodup := by
  unfold dedupe
  suffices h : ∀ acc : List (String × ℚ), (acc.map Prod.fst).Nodup →
      ((l.foldl dedupeStep acc).map Prod.fst).Nodup by
    exact h [] (by simp)
  induction l with
  | nil => intro acc hacc; simpa using hacc
  | cons el t ih =>
    intro acc hacc
    rw [List.foldl_cons]
    apply ih
    have hds : ∀ val, lookupScore acc el.1 = some val →
        dedupeStep acc el = if val < el.2 then setScore acc el.1 el.2 else acc := by
      intro val hv
      unfold dedupeStep
      rw [hv]
    have hdn : lookupScore acc el.1 = none → dedupeStep acc el = acc ++ [el] := by
      intro hv
      unfold dedupeStep
      rw [hv]
    cases hv : lookupScore acc el.1 with
    | some val =>
      rw [hds val hv]
      by_cases hlt : val < el.2
      · rw [if_pos hlt, setScore_map_fst]
        exact hacc
      · rw [if_neg hlt]
        exact hacc
    | none =>
      rw [hdn hv]
      have hnotin : el.1 ∉ acc.map Prod.fst := by
        intro hin
        obtain ⟨e, he, hke⟩ := List.mem_map.mp hin
        exact ((lookupScore_eq_none_iff acc el.1).mp hv e he) hke
      rw [List.map_append]
      simp only [List.map_cons, List.map_nil]
      rw [List.nodup_append]
      exact ⟨hacc, List.nodup_singleton _, by simpa using hnotin⟩

theorem mem_dedupe_iff {l : List (String × ℚ)} {k : String} {v : ℚ} :
    (k, v) ∈ dedupe l ↔ lookupScore (dedupe l) k = some v := by
  constructor
  · intro h
    exact lookupScore_of_mem_nodup (dedupe_keys_nodup l) h
  · exact mem_of_lookupScore

/-! ## Helper lemmas: sorting -/

theorem mem_sortByScore {l : List (String × ℚ)} {x : String × ℚ} :
    x ∈ sortByScore l ↔ x ∈ l := by
  unfold sortByScore
  exact List.mem_mergeSort

theorem perm_sortByScore (l : List (String × ℚ)) : (sortByScore l).Perm l :=
  List.mergeSort_perm l _

theorem sorted_sortByScore (l : List (String × ℚ)) :
    (sortByScore l).Pairwise (fun a b => a.2 ≤ b.2) := by
  unfold sortByScore
  have h := @List.sorted_mergeSort (String × ℚ)
    (fun a b => decide (a.2 ≤ b.2))
    (fun a b c hab hbc => by
      simp only [decide_eq_true_eq] at hab hbc ⊢
      exact le_trans hab hbc)
    (fun a b => by
      rcases le_total a.2 b.2 with h | h <;> simp [h])
    l
  exact h.imp (fun hab => by simpa using hab)

theorem pairwise_le_getLast {l : List (String × ℚ)}
    (h : l.Pairwise (fun a b => a.2 ≤ b.2)) :
    ∀ x ∈ l, ∀ y, l.getLast? = some y → x.2 ≤ y.2 := by
  induction l with
  | nil => intro x hx; simp at hx
  | cons a t ih =>
    intro x hx y hy
    cases t with
    | nil =>
      simp only [List.getLast?_singleton, Option.some.injEq] at hy
      simp only [List.mem_singleton] at hx
      rw [hx, ← hy]
    | cons b t' =>
      rw [List.getLast?_cons_cons] at hy
      rcases List.mem_cons.mp hx with h1 | h1
      · have hyl : y ∈ b :: t' := by
          have : (b :: t').getLast? = some ((b :: t').getLast (by simp)) :=
            List.getLast?_eq_getLast _ _
          rw [this] at hy
          cases hy
          exact List.getLast_mem _
        have := (List.pairwise_cons.mp h).1 y hyl
        rw [h1]
        exact this
      · exact ih (List.pairwise_cons.mp h).2 x h1 y hy

/-! ## Helper lemmas: the matched-candidates list -/

theorem mem_matchedCandidates {items : List (String × ℚ)} {filter : String}
    {p : String} {s : ℚ} :
    (p, s) ∈ matchedCandidates items filter
      ↔ ∃ f, (p, f) ∈ items ∧ ∃ m ∈ matchers, ∃ v,
          m.matches p filter = some v ∧ s = v * (0.8 : ℚ) + f * (0.2 : ℚ) := by
  unfold matchedCandidates
  rw [List.mem_flatMap]
  constructor
  · rintro ⟨item, hitem, hmem⟩
    rw [List.mem_filterMap] at hmem
    obtain ⟨m, hm, hsome⟩ := hmem
    rw [Option.map_eq_some'] at hsome
    obtain ⟨v, hv, heq⟩ := hsome
    have h1 : item.1 = p := congrArg Prod.fst heq
    have h2 : v * (0.8 : ℚ) + item.2 * (0.2 : ℚ) = s := congrArg Prod.snd heq
    refine ⟨item.2, ?_, m, hm, v, ?_, ?_⟩
    · rw [← h1]; exact hitem
    · rw [← h1]; exact hv
    · rw [← h2]
  · rintro ⟨f, hitem, m, hm, v, hv, hs⟩
    refine ⟨(p, f), hitem, ?_⟩
    rw [List.mem_filterMap]
    exact ⟨m, hm, by rw [hv, Option.map_some', hs]⟩

/-! ## Helper lemmas: pruning and normalization -/

theorem foldl_max_le_init (l : List (String × ℚ)) :
    ∀ a : ℚ, a ≤ l.foldl (fun acc e => max acc e.2) a := by
  induction l with
  | nil => intro a; simp
  | cons e t ih =>
    intro a
    rw [List.foldl_cons]
    exact le_trans (le_max_left a e.2) (ih (max a e.2))

theorem foldl_max_ge_mem {l : List (String × ℚ)} {e : String × ℚ} (he : e ∈ l) :
    ∀ a : ℚ, e.2 ≤ l.foldl (fun acc x => max acc x.2) a := by
  induction l with
  | nil => simp at he
  | cons x t ih =>
    intro a
    rw [List.foldl_cons]
    rcases List.mem_cons.mp he with h1 | h1
    · rw [h1]
      exact le_trans (le_max_right a x.2) (foldl_max_le_init t _)
    · exact ih h1 _

theorem maxRaw_nonneg (l : List (String × ℚ)) : 0 ≤ maxRaw l :=
  foldl_max_le_init l 0

theorem le_maxRaw {l : List (String × ℚ)} {e : String × ℚ} (he : e ∈ l) :
    e.2 ≤ maxRaw l :=
  foldl_max_ge_mem he 0

theorem normalized_mem_bounds {l : List (String × ℚ)} {e : String × ℚ} (he : e ∈ l)
    (hnn : ∀ x ∈ l, 0 ≤ x.2) : 0 ≤ e.2 / maxRaw l ∧ e.2 / maxRaw l ≤ 1 := by
  have h0 : 0 ≤ e.2 := hnn e he
  have hM : e.2 ≤ maxRaw l := le_maxRaw he
  rcases eq_or_lt_of_le (maxRaw_nonneg l) with hz | hz
  · have : e.2 = 0 := le_antisymm (hz ▸ hM) h0
    rw [this, ← hz]
    norm_num
  · exact ⟨div_nonneg h0 (le_of_lt hz), (div_le_one hz).mpr hM⟩

theorem mem_items_elim {isDir : String → Bool} {pf : PathFrecency} {p : String} {f : ℚ}
    (h : (p, f) ∈ (pf.items_with_frecency isDir).2) :
    isDir p = true ∧ ∃ r, (p, r) ∈ pf.frecency.entries
      ∧ f = r / maxRaw (pf.frecency.entries.filter (fun e => isDir e.1)) := by
  unfold PathFrecency.items_with_frecency at h
  simp only at h
  rw [mem_sortByScore] at h
  unfold Frecency.retain Frecency.normalized_frecency at h
  simp only at h
  rw [List.mem_map] at h
  obtain ⟨e, he, heq⟩ := h
  have h1 : e.1 = p := congrArg Prod.fst heq
  have h2 : e.2 / maxRaw (pf.frecency.entries.filter (fun e => isDir e.1)) = f :=
    congrArg Prod.snd heq
  rw [List.mem_filter] at he
  refine ⟨by rw [← h1]; exact he.2, e.2, ?_, h2.symm⟩
  rw [← h1]
  exact he.1

theorem mem_items_intro {isDir : String → Bool} {pf : PathFrecency} {p : String} {r : ℚ}
    (hmem : (p, r) ∈ pf.frecency.entries) (hdir : isDir p = true) :
    (p, r / maxRaw (pf.frecency.entries.filter (fun e => isDir e.1)))
      ∈ (pf.items_with_frecency isDir).2 := by
  unfold PathFrecency.items_with_frecency
  simp only
  rw [mem_sortByScore]
  unfold Frecency.retain Frecency.normalized_frecency
  simp only
  rw [List.mem_map]
  refine ⟨(p, r), ?_, rfl⟩
  rw [List.mem_filter]
  exact ⟨hmem, hdir⟩

/-! ## Helper lemmas: `save_to_disk` -/

theorem save_to_disk_fst (env : SaveEnv) (pf : PathFrecency) :
    (pf.save_to_disk env).1 = pf := by
  unfold PathFrecency.save_to_disk
  repeat' split
  all_goals rfl

theorem renameMsg_ne_short {m : String} (hm : m.length < 29) (e : String) :
    "could not atomically rename: " ++ e ≠ m := by
  intro h
  have hlen := congrArg String.length h
  rw [String.length_append] at hlen
  have h29 : ("could not atomically rename: " : String).length = 29 := by decide
  rw [h29] at hlen
  omega

theorem renameMsg_ne_fileComponent (e : String) :
    "could not atomically rename: " ++ e ≠ "path did not have file component" := by
  intro h
  have hd := congrArg (fun s : String => s.data.take 29) h
  simp only [String.data_append] at hd
  have hlen : ("could not atomically rename: " : String).data.length = 29 := by decide
  have ht : (("could not atomically rename: " : String).data ++ e.data).take 29
      = ("could not atomically rename: " : String).data := by
    rw [← hlen]
    exact List.take_left _ _
  rw [ht] at hd
  exact absurd hd (by decide)

/-! ## Claim theorems -/

/-- C7: if the dirty flag is false, `save_to_disk` returns success immediately
as a no-op, without creating a temporary file, serializing, or renaming
anything. -/
theorem save_to_disk_clean_noop (env : SaveEnv) (pf : PathFrecency)
    (h : pf.dirty = false) :
    pf.save_to_disk env = (pf, Except.ok SaveOutcome.noop) := by
  unfold PathFrecency.save_to_disk
  rw [h]
  rfl

/-- Witness for C7 at a concrete clean engine and environment. -/
theorem save_to_disk_clean_noop_witness :
    samplePf.save_to_disk okEnv = (samplePf, Except.ok SaveOutcome.noop) :=
  save_to_disk_clean_noop okEnv samplePf rfl

/-- C6: `save_to_disk` never changes the dirty flag (the engine state it
returns is its input, dirty flag included), so after a successful save with no
intervening mutation the flag is still true and re-invoking `save_to_disk`
performs the full serialize-and-rename again rather than the no-op path. -/
theorem save_to_disk_never_clears_dirty (env : SaveEnv) (pf : PathFrecency) :
    (pf.save_to_disk env).1 = pf
    ∧ (pf.save_to_disk env).1.dirty = pf.dirty
    ∧ (pf.dirty = true → ∀ t,
        (pf.save_to_disk env).2 = Except.ok (SaveOutcome.saved t) →
        (pf.save_to_disk env).1.save_to_disk env
          = (pf, Except.ok (SaveOutcome.saved t))) := by
  refine ⟨save_to_disk_fst env pf, by rw [save_to_disk_fst], ?_⟩
  intro _ t hsave
  rw [save_to_disk_fst]
  have hpair : pf.save_to_disk env = ((pf.save_to_disk env).1, (pf.save_to_disk env).2) := rfl
  rw [hpair, save_to_disk_fst, hsave]

/-- Witness for C6: a dirty engine saves, stays dirty, and the repeated call
serializes and renames again. -/
theorem save_to_disk_never_clears_dirty_witness :
    samplePfDirty.save_to_disk okEnv
      = (samplePfDirty, Except.ok (SaveOutcome.saved "/home/u/..pazi.42"))
    ∧ (samplePfDirty.save_to_disk okEnv).1.save_to_disk okEnv
      = (samplePfDirty, Except.ok (SaveOutcome.saved "/home/u/..pazi.42")) :=
  ⟨rfl, (save_to_disk_never_clears_dirty okEnv samplePfDirty).2.2 rfl
    "/home/u/..pazi.42" rfl⟩

/-- C10: `save_to_disk` leaves the engine's entire in-memory state — the
frecency store contents, the dirty flag and the stored database location —
unchanged, on every outcome (the Rust method borrows `&self` immutably). -/
theorem save_to_disk_preserves_state (env : SaveEnv) (pf : PathFrecency) :
    (pf.save_to_disk env).1.frecency = pf.frecency
    ∧ (pf.save_to_disk env).1.dirty = pf.dirty
    ∧ (pf.save_to_disk env).1.path = pf.path := by
  rw [save_to_disk_fst]
  exact ⟨rfl, rfl, rfl⟩

/-- Witness for C10 at a concrete engine and a failing environment. -/
theorem save_to_disk_preserves_state_witness :
    (samplePfDirty.save_to_disk
        { pid := 0, createOk := false, serializeOk := false, renameError := none }).1.frecency
      = samplePfDirty.frecency :=
  (save_to_disk_preserves_state _ samplePfDirty).1

/-- C8: when dirty, each failure condition of `save_to_disk` — zero process
id, no file-name component, no parent directory, tempfile creation failure,
serialization failure, rename failure — produces an error value (no panic),
and the six error messages are pairwise distinct. -/
theorem save_to_disk_error_cases (env : SaveEnv) (pf : PathFrecency)
    (hd : pf.dirty = true) :
    (env.pid = 0 → (pf.save_to_disk env).2 = Except.error "could not get pid")
    ∧ (env.pid ≠ 0 → pf.path.fileName = none →
        (pf.save_to_disk env).2 = Except.error "path did not have file component")
    ∧ (∀ fname, env.pid ≠ 0 → pf.path.fileName = some fname →
        pf.path.parent = none →
        (pf.save_to_disk env).2 = Except.error "unable to get parent")
    ∧ (∀ fname dir, env.pid ≠ 0 → pf.path.fileName = some fname →
        pf.path.parent = some dir → env.createOk = false →
        (pf.save_to_disk env).2 = Except.error "could not create tempfile")
    ∧ (∀ fname dir, env.pid ≠ 0 → pf.path.fileName = some fname →
        pf.path.parent = some dir → env.createOk = true → env.serializeOk = false →
        (pf.save_to_disk env).2 = Except.error "could not create tmpfile")
    ∧ (∀ fname dir e, env.pid ≠ 0 → pf.path.fileName = some fname →
        pf.path.parent = some dir → env.createOk = true → env.serializeOk = true →
        env.renameError = some e →
        (pf.save_to_disk env).2 = Except.error ("could not atomically rename: " ++ e))
    ∧ (∀ e, List.Pairwise (fun a b => a ≠ b)
        [ "could not get pid", "path did not have file component",
          "unable to get parent", "could not create tempfile",
          "could not create tmpfile", "could not atomically rename: " ++ e ]) := by
  refine ⟨?_, ?_, ?_, ?_, ?_, ?_, ?_⟩
  · intro hpid
    simp [PathFrecency.save_to_disk, hd, hpid]
  · intro hpid hfn
    simp [PathFrecency.save_to_disk, hd, hpid, hfn]
  · intro fname hpid hfn hpar
    simp [PathFrecency.save_to_disk, hd, hpid, hfn, hpar]
  · intro fname dir hpid hfn hpar hco
    simp [PathFrecency.save_to_disk, hd, hpid, hfn, hpar, hco]
  · intro fname dir hpid hfn hpar hco hso
    simp [PathFrecency.save_to_disk, hd, hpid, hfn, hpar, hco, hso]
  · intro fname dir e hpid hfn hpar hco hso hre
    simp [PathFrecency.save_to_disk, hd, hpid, hfn, hpar, hco, hso, hre]
  · intro e
    rw [show ([ "could not get pid", "path did not have file component",
          "unable to get parent", "could not create tempfile",
          "could not create tmpfile", "could not atomically rename: " ++ e ]
        : List String)
      = [ "could not get pid", "path did not have file component",
          "unable to get parent", "could not create tempfile",
          "could not create tmpfile" ] ++ ["could not atomically rename: " ++ e]
      from rfl]
    rw [List.pairwise_append]
    refine ⟨by decide, by simp, ?_⟩
    intro a ha b hb
    simp only [List.mem_singleton] at hb
    subst hb
    fin_cases ha
    · exact fun h => renameMsg_ne_short (by decide) e h.symm
    · exact fun h => renameMsg_ne_fileComponent e h.symm
    · exact fun h => renameMsg_ne_short (by decide) e h.symm
    · exact fun h => renameMsg_ne_short (by decide) e h.symm
    · exact fun h => renameMsg_ne_short (by decide) e h.symm

/-- Witness for C8: with a zero pid a dirty engine's save fails with the pid
error. -/
theorem save_to_disk_error_cases_witness :
    (samplePfDirty.save_to_disk
        { pid := 0, createOk := true, serializeOk := true, renameError := none }).2
      = Except.error "could not get pid" :=
  (save_to_disk_error_cases _ samplePfDirty rfl).1 rfl

/-- C9: `maybe_add_relative_to` returns true iff the joined path is a
directory on disk and its string form is representable; on true it inserts the
path string into the store as a fresh visit and sets the dirty flag, on false
it performs no mutation at all. -/
theorem maybe_add_relative_to_spec (isDirP : PathBuf → Bool) (pf : PathFrecency)
    (base : PathBuf) (rel : String) :
    ((pf.maybe_add_relative_to isDirP base rel).2 = true
        ↔ isDirP (base.push rel) = true ∧ (base.push rel).toStr.isSome = true)
    ∧ ((pf.maybe_add_relative_to isDirP base rel).2 = true →
        (pf.maybe_add_relative_to isDirP base rel).1
          = { pf with frecency := pf.frecency.insert (base.push rel).str,
                      dirty := true })
    ∧ ((pf.maybe_add_relative_to isDirP base rel).2 = false →
        (pf.maybe_add_relative_to isDirP base rel).1 = pf) := by
  unfold PathFrecency.maybe_add_relative_to
  by_cases hdir : isDirP (base.push rel)
  · by_cases hu : (base.push rel).utf8
    · simp [hdir, PathBuf.toStr, hu]
    · simp [hdir, PathBuf.toStr, hu]
  · simp [hdir]

/-- Witness for C9 at a concrete base and relative component: the join exists
as a directory, so the call inserts it and reports true. -/
theorem maybe_add_relative_to_spec_witness :
    (samplePf.maybe_add_relative_to allDirsP sampleBase "b").2 = true
    ∧ (samplePf.maybe_add_relative_to allDirsP sampleBase "b").1
      = { samplePf with frecency := samplePf.frecency.insert (sampleBase.push "b").str,
                        dirty := true } := by
  have h := maybe_add_relative_to_spec allDirsP samplePf sampleBase "b"
  have ht : (samplePf.maybe_add_relative_to allDirsP sampleBase "b").2 = true :=
    h.1.mpr ⟨rfl, by decide⟩
  exact ⟨ht, h.2.1 ht⟩

/-- C5: `items_with_frecency` never returns a path that is not currently a
directory, and if any stored entry failed the directory check then the
engine's dirty flag is true after the call. -/
theorem items_with_frecency_prunes (isDir : String → Bool) (pf : PathFrecency) :
    (∀ x ∈ (pf.items_with_frecency isDir).2, isDir x.1 = true)
    ∧ ((∃ e ∈ pf.frecency.entries, isDir e.1 = false) →
        (pf.items_with_frecency isDir).1.dirty = true) := by
  constructor
  · intro x hx
    obtain ⟨x1, x2⟩ := x
    exact (mem_items_elim hx).1
  · rintro ⟨e, he, hdir⟩
    have hlt : (pf.frecency.entries.filter (fun e => isDir e.1)).length
        < pf.frecency.entries.length := by
      rw [List.length_filter_lt_length_iff_exists]
      exact ⟨e, he, by rw [hdir]; exact Bool.false_ne_true⟩
    have hne : (pf.frecency.entries.filter (fun e => isDir e.1)).length
        ≠ pf.frecency.entries.length := ne_of_lt hlt
    unfold PathFrecency.items_with_frecency Frecency.retain
    simp only [decide_eq_true_eq]
    rw [if_pos hne]

/-- Witness for C5: with `"/a/b/c"` gone from the filesystem, the call returns
only directories and marks the engine dirty. -/
theorem items_with_frecency_prunes_witness :
    (∀ x ∈ (samplePf.items_with_frecency someDirs).2, someDirs x.1 = true)
    ∧ (samplePf.items_with_frecency someDirs).1.dirty = true := by
  have h := items_with_frecency_prunes someDirs samplePf
  exact ⟨h.1, h.2 ⟨("/a/b/c", 10), by decide, rfl⟩⟩

/-- C4: `directory_matches` first calls `items_with_frecency` (its returned
engine state is exactly that call's pruned state), every ranked path passed
the directory check, and the returned list is ascending in blended score with
the best match last. -/
theorem directory_matches_order (isDir : String → Bool) (pf : PathFrecency)
    (filter : String) :
    (pf.directory_matches isDir filter).1 = (pf.items_with_frecency isDir).1
    ∧ (∀ x ∈ (pf.directory_matches isDir filter).2, isDir x.1 = true)
    ∧ ((pf.directory_matches isDir filter).2).Pairwise (fun a b => a.2 ≤ b.2)
    ∧ (∀ x ∈ (pf.directory_matches isDir filter).2, ∀ y,
        ((pf.directory_matches isDir filter).2).getLast? = some y → x.2 ≤ y.2) := by
  refine ⟨rfl, ?_, ?_, ?_⟩
  · intro x hx
    obtain ⟨p, s⟩ := x
    have hx' : (p, s) ∈ sortByScore
        (dedupe (matchedCandidates ((pf.items_with_frecency isDir).2) filter)) := hx
    rw [mem_sortByScore, mem_dedupe_iff, lookupScore_dedupe] at hx'
    have hmem := listMax?_mem hx'
    unfold scoresFor at hmem
    obtain ⟨e, he, _⟩ := List.mem_map.mp hmem
    have hep : e.1 = p := by
      have := (List.mem_filter.mp he).2
      simpa using this
    have he_cand := List.mem_of_mem_filter he
    obtain ⟨e1, e2⟩ := e
    simp only at hep
    subst hep
    obtain ⟨f, hf_item, _⟩ := mem_matchedCandidates.mp he_cand
    exact (mem_items_elim hf_item).1
  · exact sorted_sortByScore _
  · intro x hx y hy
    exact pairwise_le_getLast (sorted_sortByScore _) x hx y hy

/-- Witness for C4 on the sample engine: the state is the pruned state and the
list is ascending. -/
theorem directory_matches_order_witness :
    (samplePf.directory_matches allDirs "/a/b").1
      = (samplePf.items_with_frecency allDirs).1
    ∧ ((samplePf.directory_matches allDirs "/a/b").2).Pairwise
        (fun a b => a.2 ≤ b.2) :=
  ⟨(directory_matches_order allDirs samplePf "/a/b").1,
   (directory_matches_order allDirs samplePf "/a/b").2.2.1⟩

/-- C2: the candidate list of `directory_matches` holds, for every pruned item
and every matcher strategy yielding strength `v`, exactly the blended score
`v * 0.8 + normalized_frecency * 0.2`, and nothing else; strategies yielding
no match contribute no candidate. -/
theorem directory_matches_blend (isDir : String → Bool) (pf : PathFrecency)
    (filter : String) :
    (pf.directory_matches isDir filter).2
      = sortByScore (dedupe (matchedCandidates ((pf.items_with_frecency isDir).2) filter))
    ∧ ∀ p s, ((p, s) ∈ matchedCandidates ((pf.items_with_frecency isDir).2) filter
        ↔ ∃ f, (p, f) ∈ (pf.items_with_frecency isDir).2 ∧ ∃ m ∈ matchers, ∃ v,
            m.matches p filter = some v ∧ s = v * (0.8 : ℚ) + f * (0.2 : ℚ)) :=
  ⟨rfl, fun _ _ => mem_matchedCandidates⟩

/-- Witness for C2 on the sample engine. -/
theorem directory_matches_blend_witness :
    (samplePf.directory_matches allDirs "/a/b").2
      = sortByScore (dedupe
          (matchedCandidates ((samplePf.items_with_frecency allDirs).2) "/a/b")) :=
  (directory_matches_blend allDirs samplePf "/a/b").1

/-- C3: every path appears at most once in the result of `directory_matches`,
and a path is reported exactly when some strategy matched it, with score equal
to the maximum blended score it achieved across all strategies. -/
theorem directory_matches_dedup (isDir : String → Bool) (pf : PathFrecency)
    (filter : String) (p : String) :
    (((pf.directory_matches isDir filter).2).map Prod.fst).count p ≤ 1
    ∧ ∀ s, ((p, s) ∈ (pf.directory_matches isDir filter).2
        ↔ listMax? (scoresFor
            (matchedCandidates ((pf.items_with_frecency isDir).2) filter) p) = some s) := by
  constructor
  · have hperm : ((pf.directory_matches isDir filter).2).Perm
        (dedupe (matchedCandidates ((pf.items_with_frecency isDir).2) filter)) :=
      perm_sortByScore _
    have hnd : (((pf.directory_matches isDir filter).2).map Prod.fst).Nodup :=
      ((hperm.map Prod.fst).nodup_iff).mpr (dedupe_keys_nodup _)
    exact List.nodup_iff_count_le_one.mp hnd p
  · intro s
    have hres : (pf.directory_matches isDir filter).2
        = sortByScore (dedupe (matchedCandidates ((pf.items_with_frecency isDir).2) filter)) :=
      rfl
    rw [hres, mem_sortByScore, mem_dedupe_iff, lookupScore_dedupe]

/-- Witness for C3: on the sample engine the winning path appears at most
once. -/
theorem directory_matches_dedup_witness :
    (((samplePf.directory_matches allDirs "/a/b").2).map Prod.fst).count "/a/b" ≤ 1 :=
  (directory_matches_dedup allDirs samplePf "/a/b" "/a/b").1

/-- C1: when the query filter is exactly a stored path `A`, the exact
full-string matcher yields its maximal strength for `A`, and
`directory_matches` ranks `A` strictly above every other stored path,
regardless of the two paths' normalized frecency values. -/
theorem exact_match_dominance (isDir : String → Bool) (pf : PathFrecency)
    (A : String) (rA : ℚ)
    (hmem : (A, rA) ∈ pf.frecency.entries)
    (hdir : isDir A = true)
    (hnn : ∀ e ∈ pf.frecency.entries, 0 ≤ e.2) :
    ∃ sA, (A, sA) ∈ (pf.directory_matches isDir A).2
      ∧ ∀ B sB, (B, sB) ∈ (pf.directory_matches isDir A).2 → B ≠ A → sB < sA := by
  have hres : ∀ (p : String) (s : ℚ), ((p, s) ∈ (pf.directory_matches isDir A).2
      ↔ listMax? (scoresFor
          (matchedCandidates ((pf.items_with_frecency isDir).2) A) p) = some s) := by
    intro p s
    have hr : (pf.directory_matches isDir A).2
        = sortByScore (dedupe
            (matchedCandidates ((pf.items_with_frecency isDir).2) A)) := rfl
    rw [hr, mem_sortByScore, mem_dedupe_iff, lookupScore_dedupe]
  have hkeptnn : ∀ x ∈ pf.frecency.entries.filter (fun e => isDir e.1), (0 : ℚ) ≤ x.2 :=
    fun x hx => hnn x (List.mem_of_mem_filter hx)
  have hkeptA : (A, rA) ∈ pf.frecency.entries.filter (fun e => isDir e.1) :=
    List.mem_filter.mpr ⟨hmem, by simpa using hdir⟩
  have hfA := normalized_mem_bounds hkeptA hkeptnn
  have hitemA : (A, rA / maxRaw (pf.frecency.entries.filter (fun e => isDir e.1)))
      ∈ (pf.items_with_frecency isDir).2 := mem_items_intro hmem hdir
  have hexact : Matcher.exact.matches A A = some 1 :=
    (Matcher.exact_matches_iff A A 1).mpr ⟨rfl, rfl⟩
  have hcand : (A, (1 : ℚ) * (0.8 : ℚ)
        + (rA / maxRaw (pf.frecency.entries.filter (fun e => isDir e.1))) * (0.2 : ℚ))
      ∈ matchedCandidates ((pf.items_with_frecency isDir).2) A :=
    mem_matchedCandidates.mpr
      ⟨rA / maxRaw (pf.frecency.entries.filter (fun e => isDir e.1)), hitemA,
        Matcher.exact, List.mem_cons_self _ _, 1, hexact, rfl⟩
  have hscoreA_mem : (1 : ℚ) * (0.8 : ℚ)
        + (rA / maxRaw (pf.frecency.entries.filter (fun e => isDir e.1))) * (0.2 : ℚ)
      ∈ scoresFor (matchedCandidates ((pf.items_with_frecency isDir).2) A) A := by
    unfold scoresFor
    exact List.mem_map.mpr ⟨(A, (1 : ℚ) * (0.8 : ℚ)
        + (rA / maxRaw (pf.frecency.entries.filter (fun e => isDir e.1))) * (0.2 : ℚ)),
      List.mem_filter.mpr ⟨hcand, by simp⟩, rfl⟩
  obtain ⟨sA, hsA⟩ : ∃ sA, listMax? (scoresFor
      (matchedCandidates ((pf.items_with_frecency isDir).2) A) A) = some sA := by
    cases hmx : listMax? (scoresFor
        (matchedCandidates ((pf.items_with_frecency isDir).2) A) A) with
    | none =>
      rw [listMax?_eq_none_iff] at hmx
      rw [hmx] at hscoreA_mem
      exact absurd hscoreA_mem (List.not_mem_nil _)
    | some sA => exact ⟨sA, rfl⟩
  have hsA_ge : (0.8 : ℚ) ≤ sA := by
    have hle := le_listMax? hscoreA_mem hsA
    have hfa0 := hfA.1
    nlinarith
  refine ⟨sA, (hres A sA).mpr hsA, ?_⟩
  intro B sB hB hBA
  rw [hres B sB] at hB
  have hsB_mem := listMax?_mem hB
  unfold scoresFor at hsB_mem
  obtain ⟨e, he, hes⟩ := List.mem_map.mp hsB_mem
  have heB : e.1 = B := by
    have := (List.mem_filter.mp he).2
    simpa using this
  have he_cand := List.mem_of_mem_filter he
  obtain ⟨e1, e2⟩ := e
  dsimp only at heB hes
  subst heB
  rw [← hes]
  obtain ⟨f, hf_item, m, hm, v, hv, hs⟩ := mem_matchedCandidates.mp he_cand
  have hmex : m ≠ Matcher.exact := by
    intro hmeq
    subst hmeq
    rw [Matcher.exact_matches_iff] at hv
    exact hBA hv.1
  have hvle : v ≤ (0.7 : ℚ) := Matcher.matches_ne_exact_le m _ _ v hv hmex
  have hv0 : (0 : ℚ) ≤ v := (Matcher.matches_bounds m _ _ v hv).1
  obtain ⟨hdirB, rB, hrB, hfB⟩ := mem_items_elim hf_item
  have hkeptB : (e1, rB) ∈ pf.frecency.entries.filter (fun e => isDir e.1) :=
    List.mem_filter.mpr ⟨hrB, by simpa using hdirB⟩
  have hfBb := normalized_mem_bounds hkeptB hkeptnn
  rw [hs, hfB]
  have h1 := hfBb.2
  have h0 := hfBb.1
  nlinarith

/-- Witness for C1: querying `"/a/b"` against the sample store, `"/a/b"`
(raw frecency 1) beats `"/a/b/c"` (raw frecency 10). -/
theorem exact_match_dominance_witness :
    ∃ sA, ("/a/b", sA) ∈ (samplePf.directory_matches allDirs "/a/b").2
      ∧ ∀ B sB, (B, sB) ∈ (samplePf.directory_matches allDirs "/a/b").2 →
          B ≠ "/a/b" → sB < sA :=
  exact_match_dominance allDirs samplePf "/a/b" 1 (by decide) rfl (by decide)
